import Mathlib

/-!
# Verification of the enrichment job engine (`server.cjs`)

A shallow embedding of the enrichment server's core logic:

* the Remote Client `blitzPost` (timeout / retry / backoff policy),
* the Pagination Driver `findAllEmployees`,
* the Experience Resolver `getCurrentExperience`,
* the Orchestrator `runEnrichment` with its progress broadcasts,
* the download endpoint gate.

JavaScript strings are modelled as `List Char` (`JStr`); the JS `||`
fallback on strings is `jsOr` (the empty string is the only falsy
string that occurs).  Remote responses are modelled by oracles: a
function giving, per attempt, the HTTP outcome of that attempt
(`blitzPost`), respectively the provider's full employee list per
company URL and the enrichment payloads per person URL
(`Env`, with pages served as consecutive slices of the full list,
matching the provider model of the specification).
-/

namespace Enrich

/-- JavaScript string, modelled as a list of characters. -/
abbrev JStr := List Char

/-- JS `a || b` for strings: the empty string is falsy. -/
def jsOr (a b : JStr) : JStr := if a = [] then b else a

/-- Whitespace recognised by JS `String.prototype.trim`. -/
def isJsSpace (c : Char) : Bool :=
  c = ' ' || c = '\t' || c = '\n' || c = '\r' || c = '\x0b' || c = '\x0c'

/-- JS `s.trim()`: strip leading and trailing whitespace. -/
def trimL (s : JStr) : JStr :=
  ((s.dropWhile isJsSpace).reverse.dropWhile isJsSpace).reverse

/-- JS `s.replace(/\/$/, '')`: remove one trailing slash if present. -/
def dropTrailingSlash (s : JStr) : JStr :=
  if s.getLast? = some '/' then s.dropLast else s

/-- JS `s.includes(sub)`: substring containment. -/
def containsSub (sub : JStr) : JStr → Bool
  | [] => sub.isEmpty
  | c :: rest => sub.isPrefixOf (c :: rest) || containsSub sub rest

/-- Fuel-driven worker for `splitOnL`; `fuel ≥ s.length + 1` always
suffices, so the fuel-exhausted arm is unreachable from `splitOnL`. -/
def splitOnFuel (sep : JStr) : Nat → JStr → JStr → List JStr
  | 0, s, acc => [acc.reverse ++ s]
  | fuel + 1, s, acc =>
    if sep.isPrefixOf s then
      acc.reverse :: splitOnFuel sep fuel (s.drop sep.length) []
    else
      match s with
      | [] => [acc.reverse]
      | c :: rest => splitOnFuel sep fuel rest (c :: acc)

/-- JS `s.split(sep)` for a non-empty separator (JS splits on each
non-overlapping occurrence, left to right). -/
def splitOnL (s sep : JStr) : List JStr :=
  if sep = [] then [s] else splitOnFuel sep (s.length + 1) s []

/-- JS `array.pop()` used on the result of `split`: the last element
(`split` never returns an empty array). -/
def lastD (l : List JStr) : JStr := l.getLastD []

/-- The company slug: `companyUrl.replace(/\/$/, '').split('/company/').pop()`. -/
def companySlug (companyUrl : JStr) : JStr :=
  lastD (splitOnL (dropTrailingSlash companyUrl) ('/' :: 'c' :: 'o' :: 'm' :: 'p' :: 'a' :: 'n' :: 'y' :: '/' :: []))

/-- One work-history entry of an employee (fields used by the engine;
a JSON field that is absent is the empty string / `false`). -/
structure Experience where
  job_is_current : Bool
  company_linkedin_url : JStr
  job_title : JStr
deriving DecidableEq

/-- The empty placeholder `{}` returned when there is no history. -/
def emptyExperience : Experience := ⟨false, [], []⟩

/-- One employee record as returned by the employee-finder search
(fields used by the engine; `location` is flattened; absent JSON
fields are empty strings). -/
structure Employee where
  linkedin_url : JStr
  full_name : JStr
  first_name : JStr
  last_name : JStr
  headline : JStr
  connections_count : JStr
  city : JStr
  state_code : JStr
  country_code : JStr
  experiences : List Experience
deriving DecidableEq

/-- Function `getCurrentExperience(experiences, companyUrl)` translated from the
source: first current entry whose company URL contains the slug (slug
must be non-empty), else first current entry, else `experiences[0] || {}`. -/
def getCurrentExperience (experiences : List Experience) (companyUrl : JStr) : Experience :=
  let slug := companySlug companyUrl
  match experiences.find? (fun e =>
      e.job_is_current && !slug.isEmpty && containsSub slug e.company_linkedin_url) with
  | some e => e
  | none =>
    match experiences.find? (fun e => e.job_is_current) with
    | some e => e
    | none => experiences.headD emptyExperience

/-- The path segment following "/company/" in the target URL, read
literally: the part after the last occurrence of "/company/", cut at
the next "/"; `none` when the URL contains no "/company/" (then no
such segment exists). -/
def segmentAfterCompany (companyUrl : JStr) : Option JStr :=
  match splitOnL companyUrl ('/' :: 'c' :: 'o' :: 'm' :: 'p' :: 'a' :: 'n' :: 'y' :: '/' :: []) with
  | [] => none
  | [_] => none
  | _ :: rest => some ((rest.getLastD []).takeWhile (fun c => !(c == '/')))

/-- Modelled from the spec (§4.4), by its words, for comparison with
`getCurrentExperience`: (1) the first current-status entry whose
company identifier contains the path segment following "/company/" in
the target URL (no entry qualifies when the URL has no such segment);
(2) otherwise the first entry marked current; (3) otherwise the first
entry in the supplied order; (4) an empty placeholder when the history
is empty. -/
def specResolve (experiences : List Experience) (companyUrl : JStr) : Experience :=
  let pri1 : Option Experience := match segmentAfterCompany companyUrl with
    | none => none
    | some seg => experiences.find? (fun e : Experience =>
        e.job_is_current && containsSub seg e.company_linkedin_url)
  match pri1 with
  | some e => e
  | none =>
    match experiences.find? (fun e => e.job_is_current) with
    | some e => e
    | none =>
      match experiences with
      | [] => emptyExperience
      | e :: _ => e

/-- The spec's resolver description amended to what the code computes:
priority (1) tests containment of the *slug* — everything following
the last "/company/" in the target URL after removing one trailing
slash, or the whole URL when "/company/" does not occur; an empty
slug admits every current entry, collapsing priority (1) into
priority (2).  Priorities (2)–(4) as in the spec. -/
def amendedResolve (experiences : List Experience) (companyUrl : JStr) : Experience :=
  let seg := companySlug companyUrl
  match experiences.find? (fun e =>
      e.job_is_current && containsSub seg e.company_linkedin_url) with
  | some e => e
  | none =>
    match experiences.find? (fun e => e.job_is_current) with
    | some e => e
    | none =>
      match experiences with
      | [] => emptyExperience
      | e :: _ => e

/-- A current work-history entry whose company identifier contains
neither "acme" nor "acme/about". -/
def c8Entry1 : Experience :=
  ⟨true, 'o' :: 't' :: 'h' :: 'e' :: 'r' :: [], 't' :: '1' :: []⟩

/-- A current work-history entry whose company identifier
`"li/company/acme"` contains the path segment "acme" but not the
code's slug "acme/about". -/
def c8Entry2 : Experience :=
  ⟨true,
   'l' :: 'i' :: '/' :: 'c' :: 'o' :: 'm' :: 'p' :: 'a' :: 'n' :: 'y' :: '/' :: 'a' :: 'c' :: 'm' :: 'e' :: [],
   't' :: '2' :: []⟩

/-- A target company URL with a further path segment after the
company slug: `"x/company/acme/about"`. -/
def c8Url : JStr :=
  'x' :: '/' :: 'c' :: 'o' :: 'm' :: 'p' :: 'a' :: 'n' :: 'y' :: '/' :: 'a' :: 'c' :: 'm' :: 'e' :: '/' :: 'a' :: 'b' :: 'o' :: 'u' :: 't' :: []

/-- Constant `PAGE_SIZE` from the source. -/
def PAGE_SIZE : Nat := 50

/-- Constant `DELAY_MS` from the source (the fixed inter-request delay). -/
def DELAY_MS : Nat := 150

/-- Fuel-driven pagination loop of `findAllEmployees`: page `k` of a
provider holding `records` is the `k`-th slice of length `P`; the loop
stops as soon as a page returns fewer than `P` records.  Returns the
accumulated records and the number of search calls made.
`fuel ≥ records.length + 1` always suffices (each full page consumes
`P ≥ 1` records), so the fuel-exhausted arm is unreachable from
`findAllEmployees`. -/
def findAllEmployeesAux (P : Nat) : Nat → List α → List α × Nat
  | 0, _ => ([], 0)
  | fuel + 1, l =>
    let page := l.take P
    if page.length < P then (page, 1)
    else
      let r := findAllEmployeesAux P fuel (l.drop P)
      (page ++ r.1, r.2 + 1)

/-- Function `findAllEmployees` translated from the source, for a provider that
holds exactly the record list `records` and serves it in consecutive
pages of size `P`: the collected records and the number of
`employee-finder` search calls issued. -/
def findAllEmployees (P : Nat) (records : List α) : List α × Nat :=
  findAllEmployeesAux P (records.length + 1) records

/-- Outcome of one `fetch` attempt inside `blitzPost`: either a
response with an HTTP status and a JSON body (`none` when `r.json()`
throws), or a thrown network error / 30-second timeout. -/
inductive FetchOut (β : Type) where
  | response (status : Nat) (body : Option β)
  | netError
deriving DecidableEq

/-- Observable behaviour of one `blitzPost` call: the returned value
(`none` is the empty result object `{}`), the waits slept between
attempts in order, and the number of fetch attempts issued. -/
structure CallResult (β : Type) where
  result : Option β
  waits : List Nat
  attempts : Nat
deriving DecidableEq

/-- The retry loop of `blitzPost`, translated from the source.
`oracle k` is the outcome of attempt `k` (0-indexed).  Structure of
one iteration with `attempt ≤ retries`:
status 429 → sleep `min(1000·2^attempt, 16000)` and continue;
status 422/404 → return `{}`;
status ok with a parsed body → return it;
anything else (non-ok status, thrown fetch, failed body parse) →
if attempts remain, sleep `1000·(attempt+1)` and continue, else
return `{}`.  When the loop condition fails the call returns `{}`.
`fuel = retries + 1 - attempt` makes the fuel-exhausted arm coincide
with the loop condition failing. -/
def blitzAux (oracle : Nat → FetchOut β) (retries : Nat) : Nat → Nat → CallResult β
  | _, 0 => ⟨none, [], 0⟩
  | attempt, fuel + 1 =>
    if attempt ≤ retries then
      let hard : CallResult β :=
        if attempt < retries then
          let r := blitzAux oracle retries (attempt + 1) fuel
          ⟨r.result, 1000 * (attempt + 1) :: r.waits, r.attempts + 1⟩
        else ⟨none, [], 1⟩
      match oracle attempt with
      | .netError => hard
      | .response status body =>
        if status = 429 then
          let r := blitzAux oracle retries (attempt + 1) fuel
          ⟨r.result, min (1000 * 2 ^ attempt) 16000 :: r.waits, r.attempts + 1⟩
        else if status = 422 ∨ status = 404 then ⟨none, [], 1⟩
        else if 200 ≤ status ∧ status ≤ 299 then
          match body with
          | some b => ⟨some b, [], 1⟩
          | none => hard
        else hard
    else ⟨none, [], 0⟩

/-- Function `blitzPost` translated from the source: `retries = 4`, attempts
`0..4` (5 total). -/
def blitzPost (oracle : Nat → FetchOut β) : CallResult β :=
  blitzAux oracle 4 0 5

/-- The attempt outcome is a rate-limited (429) response. -/
def isRateLimited : FetchOut β → Bool
  | .response status _ => status = 429
  | .netError => false

/-- The attempt outcome is a "hard" failure: thrown fetch/timeout, a
non-ok status other than 429/422/404, or an ok status whose body fails
to parse. -/
def isHardFail : FetchOut β → Bool
  | .netError => true
  | .response status body =>
    !(status = 429 : Bool) && !((status = 422 : Bool) || (status = 404 : Bool)) &&
      (if 200 ≤ status ∧ status ≤ 299 then body.isNone else true)

/-- The attempt outcome is a parsed successful response. -/
def isSuccess : FetchOut β → Bool
  | .response status body =>
    !(status = 429 : Bool) && !((status = 422 : Bool) || (status = 404 : Bool)) &&
      (decide (200 ≤ status ∧ status ≤ 299)) && body.isSome
  | .netError => false

/-- Job lifecycle phase (§4.6). -/
inductive Phase where
  | queued
  | enriching
  | done
  | error
deriving DecidableEq

/-- The mutable `job.status` snapshot.  Fields the JS object acquires
only later via `Object.assign` (`currentCompanyName`, `error`) start
out empty / `none`. -/
structure Status where
  phase : Phase
  companyCurrent : Nat
  companyTotal : Nat
  currentCompanyName : JStr
  employeesFound : Nat
  emailsFound : Nat
  phonesFound : Nat
  done : Bool
  error : Option JStr
deriving DecidableEq

/-- Delta of `broadcast(job, { phase: 'enriching' })`. -/
def deltaEnriching (st : Status) : Status := { st with phase := .enriching }

/-- Delta of `broadcast(job, { companyCurrent: i + 1, currentCompanyName })`. -/
def deltaRow (i : Nat) (name : JStr) (st : Status) : Status :=
  { st with companyCurrent := i + 1, currentCompanyName := name }

/-- Delta of `broadcast(job, { employeesFound })`. -/
def deltaEmployees (n : Nat) (st : Status) : Status := { st with employeesFound := n }

/-- Delta of `broadcast(job, { emailsFound })`. -/
def deltaEmails (n : Nat) (st : Status) : Status := { st with emailsFound := n }

/-- Delta of `broadcast(job, { phonesFound })`. -/
def deltaPhones (n : Nat) (st : Status) : Status := { st with phonesFound := n }

/-- Delta of the terminal
`broadcast(job, { phase: 'done', done: true, employeesFound, emailsFound, phonesFound })`. -/
def deltaDone (e m p : Nat) (st : Status) : Status :=
  { st with phase := .done, done := true,
            employeesFound := e, emailsFound := m, phonesFound := p }

/-- Delta of the catch handler
`broadcast(job, { phase: 'error', error: err.message, done: true })`. -/
def deltaError (msg : JStr) (st : Status) : Status :=
  { st with phase := .error, error := some msg, done := true }

/-- One emitted output record (`job.results.push({...})`). -/
structure ResultRow where
  company_name : JStr
  company_linkedin_url : JStr
  company_domain : JStr
  company_location : JStr
  company_size : JStr
  full_name : JStr
  first_name : JStr
  last_name : JStr
  job_title : JStr
  headline : JStr
  person_linkedin_url : JStr
  city : JStr
  state : JStr
  country : JStr
  email : JStr
  email_status : JStr
  phone_mobile : JStr
  connections_count : JStr
deriving DecidableEq

/-- One outbound remote call issued by the pipeline. -/
inductive Call where
  | search (companyUrl : JStr) (page : Nat)
  | email (personUrl : JStr)
  | phone (personUrl : JStr)
deriving DecidableEq

/-- An input row, restricted to the cells the engine reads (the cell of
the detected company-URL column and of the optional metadata columns;
a missing cell is the empty string, as `row[col] || ''` yields). -/
structure Row where
  linkedin : JStr
  name : JStr
  domain : JStr
  location : JStr
  size : JStr
deriving DecidableEq

/-- A job as handed to `runEnrichment`: the parsed rows, which optional
metadata columns were detected, and the `skipPhone` option. -/
structure Job where
  rows : List Row
  hasNameCol : Bool
  hasDomainCol : Bool
  hasLocationCol : Bool
  hasSizeCol : Bool
  skipPhone : Bool

/-- Parsed email-enrichment response (`{}` gives empty fields, matching
`emailData.email || ''` and `emailData.email_status || ''`). -/
structure EmailData where
  email : JStr
  email_status : JStr

/-- Parsed phone-enrichment response. -/
structure PhoneData where
  phone : JStr

/-- The remote provider as seen above the Remote Client: the full
employee list per company URL (served in page slices), and the parsed
enrichment payloads per person URL.  Any Remote Client outcome is
covered: a call that ends in the empty result object `{}` is an
oracle answering with empty fields / an empty list. -/
structure Env where
  employees : JStr → List Employee
  emailOf : JStr → EmailData
  phoneOf : JStr → PhoneData

/-- Per-company values resolved at the top of the row loop. -/
structure CompanyCtx where
  companyUrl : JStr
  companyName : JStr
  companyDomain : JStr
  companyLocation : JStr
  companySize : JStr

/-- Observable state of one Orchestrator run: the live status, the
ordered list of published snapshots, the accumulated results, the
outbound-call trace, and the three local counters of `runEnrichment`. -/
structure OrchState where
  status : Status
  snapshots : List Status
  results : List ResultRow
  calls : List Call
  employeesFound : Nat
  emailsFound : Nat
  phonesFound : Nat

/-- Function `broadcast(job, update)`: merge the delta into the status and
publish the merged snapshot to every subscriber. -/
def bcast (s : OrchState) (f : Status → Status) : OrchState :=
  { s with status := f s.status, snapshots := s.snapshots ++ [f s.status] }

/-- The status a job is created with (lines 98–106 of the source). -/
def initStatus (job : Job) : Status :=
  ⟨.queued, 0, job.rows.length, [], 0, 0, 0, false, none⟩

/-- Orchestrator state at the start of `runEnrichment`. -/
def initState (job : Job) : OrchState :=
  ⟨initStatus job, [], [], [], 0, 0, 0⟩

/-- The body of the inner `for (const emp of employees)` loop:
resolve the relevant experience, enrich with email and (unless
`skipPhone`) phone when the employee has a LinkedIn URL, then append
one ResultRow. -/
def processEmployee (env : Env) (skipPhone : Bool) (ctx : CompanyCtx)
    (emp : Employee) (s : OrchState) : OrchState :=
  let liUrl := emp.linkedin_url
  let currentExp := getCurrentExperience emp.experiences ctx.companyUrl
  let jobTitle := jsOr currentExp.job_title emp.headline
  let enriched : OrchState × JStr × JStr × JStr :=
    if liUrl = [] then (s, [], [], [])
    else
      let ed := env.emailOf liUrl
      let sa := { s with calls := s.calls ++ [Call.email liUrl] }
      let sb :=
        if ed.email = [] then sa
        else
          let sa' := { sa with emailsFound := sa.emailsFound + 1 }
          bcast sa' (deltaEmails sa'.emailsFound)
      if skipPhone then (sb, ed.email, ed.email_status, [])
      else
        let pd := env.phoneOf liUrl
        let sc := { sb with calls := sb.calls ++ [Call.phone liUrl] }
        let sd :=
          if pd.phone = [] then sc
          else
            let sc' := { sc with phonesFound := sc.phonesFound + 1 }
            bcast sc' (deltaPhones sc'.phonesFound)
        (sd, ed.email, ed.email_status, pd.phone)
  let s1 := enriched.1
  let email := enriched.2.1
  let emailStatus := enriched.2.2.1
  let phone := enriched.2.2.2
  { s1 with results := s1.results ++
      [⟨ctx.companyName, ctx.companyUrl, ctx.companyDomain, ctx.companyLocation,
        ctx.companySize, emp.full_name, emp.first_name, emp.last_name, jobTitle,
        emp.headline, liUrl, emp.city, emp.state_code, emp.country_code,
        email, emailStatus, phone, emp.connections_count⟩] }

/-- Fold of `processEmployee` over the discovered employees, in order. -/
def processEmployees (env : Env) (skipPhone : Bool) (ctx : CompanyCtx) :
    List Employee → OrchState → OrchState
  | [], s => s
  | emp :: rest, s =>
    processEmployees env skipPhone ctx rest (processEmployee env skipPhone ctx emp s)

/-- The body of the outer `for` loop of `runEnrichment` for row `i`:
resolve the company cells, publish the row delta, skip empty
identifiers, otherwise paginate the employee search and enrich every
employee. -/
def processRow (env : Env) (job : Job) (i : Nat) (row : Row) (s : OrchState) : OrchState :=
  let companyUrl := trimL row.linkedin
  let companyName := if job.hasNameCol then row.name else companyUrl
  let companyDomain := if job.hasDomainCol then row.domain else []
  let companyLocation := if job.hasLocationCol then row.location else []
  let companySize := if job.hasSizeCol then row.size else []
  let s1 := bcast s (deltaRow i (jsOr companyName companyUrl))
  if companyUrl = [] then s1
  else
    let pr := findAllEmployees PAGE_SIZE (env.employees companyUrl)
    let s2 := { s1 with
      calls := s1.calls ++ (List.range pr.2).map (fun p => Call.search companyUrl (p + 1)),
      employeesFound := s1.employeesFound + pr.1.length }
    let s3 := bcast s2 (deltaEmployees s2.employeesFound)
    processEmployees env job.skipPhone
      ⟨companyUrl, companyName, companyDomain, companyLocation, companySize⟩ pr.1 s3

/-- Fold of `processRow` over the input rows with their indices. -/
def processRows (env : Env) (job : Job) : Nat → List Row → OrchState → OrchState
  | _, [], s => s
  | i, row :: rest, s =>
    processRows env job (i + 1) rest (processRow env job i row s)

/-- Function `runEnrichment` translated from the source: publish `enriching`,
process every row in order, then publish the terminal `done` snapshot
carrying the final counters. -/
def runEnrichment (job : Job) (env : Env) : OrchState :=
  let s1 := processRows env job 0 job.rows (bcast (initState job) deltaEnriching)
  bcast s1 (deltaDone s1.employeesFound s1.emailsFound s1.phonesFound)

/-- Line 94 of the source: `const doSkipPhone = skipPhone === 'true'`
(`none` models an absent form field, i.e. `undefined`). -/
def doSkipPhone (v : Option JStr) : Bool :=
  v = some ('t' :: 'r' :: 'u' :: 'e' :: [])

/-- The slice of a job the download endpoint reads. -/
structure JobRec where
  status : Status
  results : List ResultRow
deriving DecidableEq

/-- Outcome of `GET /api/download/:jobId`. -/
inductive DownloadOut where
  | notFound
  | notReady
  | file (rows : List ResultRow)
deriving DecidableEq

/-- The download endpoint translated from the source: 404 when the job
id is unknown, 400 ("Enrichment not complete yet") while
`job.status.done` is false, otherwise the accumulated result rows. -/
def download (j : Option JobRec) : DownloadOut :=
  match j with
  | none => .notFound
  | some job => if job.status.done = false then .notReady else .file job.results

/-- The attempt outcome is a not-found / unprocessable (404 / 422)
response. -/
def isNotFound : FetchOut β → Bool
  | .response status _ => (status = 422 : Bool) || (status = 404 : Bool)
  | .netError => false

/-- The value a successful attempt would make `blitzPost` return
(follows the branch order of the source; `none` for every
non-success outcome). -/
def successBody : FetchOut β → Option β
  | .response status body =>
    if status = 429 then none
    else if status = 422 ∨ status = 404 then none
    else if 200 ≤ status ∧ status ≤ 299 then body
    else none
  | .netError => none

/-- Per-attempt backoff bookkeeping of the retry loop, stated for a
suffix of the loop starting at attempt `a` with `fuel` iterations
left: every reached rate-limited attempt records the exponential wait
(and is retried while budget remains), and every reached hard-failure
attempt below the budget records the linear wait and is retried. -/
def TraceProp (oracle : Nat → FetchOut β) (retries a fuel : Nat) : Prop :=
  ∀ k, k < (blitzAux oracle retries a fuel).attempts →
    (isRateLimited (oracle (a + k)) = true →
        (blitzAux oracle retries a fuel).waits[k]?
            = some (min (1000 * 2 ^ (a + k)) 16000) ∧
        (a + k < retries → k + 1 < (blitzAux oracle retries a fuel).attempts)) ∧
    (isHardFail (oracle (a + k)) = true → a + k < retries →
        (blitzAux oracle retries a fuel).waits[k]? = some (1000 * (a + k + 1)) ∧
        k + 1 < (blitzAux oracle retries a fuel).attempts)

/-- The preorder on snapshots whose monotonicity §8 asserts. -/
def statusLe (a b : Status) : Prop :=
  a.companyCurrent ≤ b.companyCurrent ∧ a.employeesFound ≤ b.employeesFound ∧
  a.emailsFound ≤ b.emailsFound ∧ a.phonesFound ≤ b.phonesFound

/-- The call is a phone-enrichment call. -/
def isPhoneCall : Call → Bool
  | .phone _ => true
  | _ => false

/-- No phone-enrichment call was issued and `phonesFound` is 0 in the
local counter, the live status, and every published snapshot. -/
def phoneFree (s : OrchState) : Bool :=
  s.calls.all (fun c => !isPhoneCall c) && (s.phonesFound == 0) &&
    (s.status.phonesFound == 0) && s.snapshots.all (fun st => st.phonesFound == 0)

/-- Invariant tying the live status to the published snapshots and the
local counters: the snapshots form a `statusLe`-chain, the live status
dominates the last snapshot, and the status counters never exceed the
local ones. -/
def MonoInv (s : OrchState) : Prop :=
  List.Chain' statusLe s.snapshots ∧
  (∀ x, s.snapshots.getLast? = some x → statusLe x s.status) ∧
  s.status.employeesFound ≤ s.employeesFound ∧
  s.status.emailsFound ≤ s.emailsFound ∧
  s.status.phonesFound ≤ s.phonesFound

/-- A sample input row whose company-URL cell is `"u"`. -/
def sampleRow1 : Row := ⟨'u' :: [], [], [], [], []⟩

/-- A sample input row whose company-URL cell is a single space
(empty after trimming). -/
def rowBlank : Row := ⟨' ' :: [], [], [], [], []⟩

/-- A sample one-row job with `skipPhone = true`. -/
def jobTrue : Job := ⟨[sampleRow1], false, false, false, false, true⟩

/-- A sample one-row job with `skipPhone = false`. -/
def jobFalse : Job := ⟨[sampleRow1], false, false, false, false, false⟩

/-- A sample discovered employee with LinkedIn URL `"p"` and no work
history. -/
def sampleEmployee : Employee :=
  ⟨'p' :: [], [], [], [], [], [], [], [], [], []⟩

/-- A sample provider: one employee per company, and non-empty email
and phone payloads for every person. -/
def sampleEnv : Env :=
  ⟨fun _ => [sampleEmployee], fun _ => ⟨'e' :: [], 's' :: []⟩, fun _ => ⟨'7' :: []⟩⟩

/-- A sample accumulated result row (all fields empty). -/
def sampleResultRow : ResultRow :=
  ⟨[], [], [], [], [], [], [], [], [], [], [], [], [], [], [], [], [], []⟩

/-- A job record as the catch handler leaves it mid-run: the status
went `queued` → `enriching` → error broadcast, with one accumulated
partial result row. -/
def erroredJobRec : JobRec :=
  ⟨deltaError ('b' :: 'o' :: 'o' :: 'm' :: []) (deltaEnriching (initStatus jobTrue)),
   [sampleResultRow]⟩

/-! ## Pagination Driver -/

theorem findAllEmployeesAux_spec {α : Type} (P : Nat) (hP : 0 < P) :
    ∀ (fuel : Nat) (l : List α), l.length < fuel →
      findAllEmployeesAux P fuel l = (l, l.length / P + 1) := by
  intro fuel
  induction fuel with
  | zero => intro l h; omega
  | succ n ih =>
    intro l h
    by_cases hlt : l.length < P
    · have htake : l.take P = l := List.take_of_length_le (le_of_lt hlt)
      have hlen : (l.take P).length < P := by rw [htake]; exact hlt
      simp only [findAllEmployeesAux, hlen, if_true]
      rw [htake, Nat.div_eq_of_lt hlt]
    · push_neg at hlt
      have hlen : ¬ (l.take P).length < P := by
        rw [List.length_take]; omega
      have hrec : findAllEmployeesAux P n (l.drop P) = (l.drop P, (l.drop P).length / P + 1) := by
        refine ih (l.drop P) ?_
        rw [List.length_drop]; omega
      simp only [findAllEmployeesAux, hlen, if_false, hrec]
      refine Prod.ext ?_ ?_
      · exact List.take_append_drop P l
      · show (l.drop P).length / P + 1 + 1 = l.length / P + 1
        rw [List.length_drop]
        rw [Nat.div_eq_sub_div hP hlt]

theorem findAllEmployees_spec {α : Type} (P : Nat) (hP : 0 < P) (l : List α) :
    findAllEmployees P l = (l, l.length / P + 1) :=
  findAllEmployeesAux_spec P hP (l.length + 1) l (Nat.lt_succ_self _)

theorem ceil_div_of_not_dvd {N P : Nat} (hP : 0 < P) (h : ¬ P ∣ N) :
    (N + P - 1) / P = N / P + 1 := by
  have hmod : N % P ≠ 0 := fun hc => h (Nat.dvd_iff_mod_eq_zero.mpr hc)
  have hlt : N % P < P := Nat.mod_lt _ hP
  have hdm : P * (N / P) + N % P = N := Nat.div_add_mod N P
  have hexp : P * (N / P + 1) = P * (N / P) + P := by ring
  have hrw : N + P - 1 = (N % P - 1) + P * (N / P + 1) := by omega
  rw [hrw, Nat.add_mul_div_left _ _ hP, Nat.div_eq_of_lt (by omega)]
  exact Nat.zero_add _

/-- C2 (amended): for a provider holding exactly `N` records and page
size `P > 0`, the Pagination Driver returns all `N` records in order
and issues exactly `⌊N/P⌋ + 1` search calls; equivalently `⌈N/P⌉`
calls when `P` does not divide `N`, and one extra empty page —
`N/P + 1` calls — when `N` is a multiple of `P`, *including* `N = 0`,
where a single empty page is fetched. -/
theorem claim_C2 {α : Type} (P : Nat) (hP : 0 < P) (l : List α) :
    (findAllEmployees P l).1 = l ∧
    (findAllEmployees P l).2 = l.length / P + 1 ∧
    (¬ P ∣ l.length → (findAllEmployees P l).2 = (l.length + P - 1) / P) ∧
    (P ∣ l.length → (findAllEmployees P l).2 = l.length / P + 1) := by
  have hs := findAllEmployees_spec P hP l
  refine ⟨by rw [hs], by rw [hs], fun hnd => ?_, fun _ => by rw [hs]⟩
  rw [hs, ceil_div_of_not_dvd hP hnd]

/-- C2 counterexample to the claim as stated: a company with `N = 0`
employees (not a *positive* multiple of `P = 50`) would have to fetch
`⌈0/50⌉ = 0` pages, but the driver issues one search call. -/
theorem claim_C2_counterexample :
    (findAllEmployees 50 ([] : List Nat)).2 = 1 ∧ ((0 : Nat) + 50 - 1) / 50 = 0 := by
  decide

theorem claim_C2_witness :
    (0 : Nat) < 50 ∧ (findAllEmployees 50 [0, 1, 2]).1 = [0, 1, 2] ∧
      (findAllEmployees 50 [0, 1, 2]).2 = 3 / 50 + 1 :=
  ⟨by decide, (claim_C2 50 (by decide) [0, 1, 2]).1, (claim_C2 50 (by decide) [0, 1, 2]).2.1⟩

/-! ## Remote Client -/

theorem blitzAux_attempts_pos {β : Type} (oracle : Nat → FetchOut β) (retries fuel a : Nat)
    (ha : a ≤ retries) : 1 ≤ (blitzAux oracle retries a (fuel + 1)).attempts := by
  simp only [blitzAux, ha, if_true]
  cases h : oracle a with
  | netError => by_cases hlt : a < retries <;> simp [hlt]
  | response status body =>
    by_cases h429 : status = 429
    · simp [h429]
    · by_cases h44 : status = 422 ∨ status = 404
      · simp [h429, h44]
      · by_cases hok : 200 ≤ status ∧ status ≤ 299
        · cases body with
          | some b => simp [h429, h44, hok]
          | none => by_cases hlt : a < retries <;> simp [h429, h44, hok, hlt]
        · by_cases hlt : a < retries <;> simp [h429, h44, hok, hlt]

theorem traceProp_cons {β : Type} (oracle : Nat → FetchOut β) (retries a n w : Nat)
    (hB : blitzAux oracle retries a (n + 1)
        = ⟨(blitzAux oracle retries (a + 1) n).result,
           w :: (blitzAux oracle retries (a + 1) n).waits,
           (blitzAux oracle retries (a + 1) n).attempts + 1⟩)
    (hrec : TraceProp oracle retries (a + 1) n)
    (hpos : a < retries → 1 ≤ (blitzAux oracle retries (a + 1) n).attempts)
    (hRL : isRateLimited (oracle a) = true → w = min (1000 * 2 ^ a) 16000)
    (hHF : isHardFail (oracle a) = true → w = 1000 * (a + 1)) :
    TraceProp oracle retries a (n + 1) := by
  intro k hk
  rw [hB] at hk
  simp only at hk
  cases k with
  | zero =>
    constructor
    · intro hrl
      rw [Nat.add_zero] at hrl
      refine ⟨by rw [hB, hRL hrl]; simp, fun hlt => ?_⟩
      rw [hB]
      simp only
      have := hpos (by omega)
      omega
    · intro hhf hlt
      rw [Nat.add_zero] at hhf hlt
      refine ⟨by rw [hB, hHF hhf]; simp, ?_⟩
      rw [hB]
      simp only
      have := hpos hlt
      omega
  | succ k' =>
    have hk' : k' < (blitzAux oracle retries (a + 1) n).attempts := by omega
    have hrec' := hrec k' hk'
    have hidx : a + (k' + 1) = (a + 1) + k' := by omega
    rw [hidx]
    constructor
    · intro hrl
      obtain ⟨hw, hr⟩ := hrec'.1 hrl
      refine ⟨by rw [hB]; simpa using hw, fun hlt => ?_⟩
      rw [hB]
      simp only
      have := hr hlt
      omega
    · intro hhf hlt
      obtain ⟨hw, hr⟩ := hrec'.2 hhf hlt
      refine ⟨by rw [hB]; simpa using hw, ?_⟩
      rw [hB]
      simp only
      omega

theorem traceProp_term {β : Type} (oracle : Nat → FetchOut β) (retries a fuel : Nat)
    (res : Option β) (t : Nat)
    (hB : blitzAux oracle retries a fuel = ⟨res, [], t⟩) (ht : t ≤ 1)
    (hno : isRateLimited (oracle a) = false)
    (hnh : isHardFail (oracle a) = true → ¬ a < retries) :
    TraceProp oracle retries a fuel := by
  intro k hk
  rw [hB] at hk
  simp only at hk
  have hk0 : k = 0 := by omega
  subst hk0
  rw [Nat.add_zero]
  constructor
  · intro hrl
    rw [hno] at hrl
    cases hrl
  · intro hhf hlt
    exact absurd hlt (hnh hhf)

theorem traceProp_zero {β : Type} (oracle : Nat → FetchOut β) (retries a : Nat) :
    TraceProp oracle retries a 0 := by
  intro k hk
  simp [blitzAux] at hk

theorem blitzAux_trace {β : Type} (oracle : Nat → FetchOut β) (retries : Nat) :
    ∀ (fuel a : Nat), a + fuel = retries + 1 → TraceProp oracle retries a fuel := by
  intro fuel
  induction fuel with
  | zero => intro a _; exact traceProp_zero oracle retries a
  | succ n ih =>
    intro a hfa
    have ha : a ≤ retries := by omega
    have hrec : TraceProp oracle retries (a + 1) n := by
      rcases Nat.eq_zero_or_pos n with hn | hn
      · subst hn; exact traceProp_zero oracle retries (a + 1)
      · exact ih (a + 1) (by omega)
    have hpos : a < retries → 1 ≤ (blitzAux oracle retries (a + 1) n).attempts := by
      intro hlt
      have hn : 1 ≤ n := by omega
      obtain ⟨m, rfl⟩ : ∃ m, n = m + 1 := ⟨n - 1, by omega⟩
      exact blitzAux_attempts_pos oracle retries m (a + 1) (by omega)
    cases ho : oracle a with
    | netError =>
      by_cases hlt : a < retries
      · refine traceProp_cons oracle retries a n (1000 * (a + 1)) ?_ hrec hpos ?_ ?_
        · simp [blitzAux, ha, ho, hlt]
        · intro h; rw [ho] at h; simp [isRateLimited] at h
        · intro _; rfl
      · refine traceProp_term oracle retries a (n + 1) none 1 ?_ (le_refl 1) ?_ ?_
        · simp [blitzAux, ha, ho, hlt]
        · rw [ho]; rfl
        · intro _; exact hlt
    | response status body =>
      by_cases h429 : status = 429
      · refine traceProp_cons oracle retries a n (min (1000 * 2 ^ a) 16000) ?_ hrec hpos ?_ ?_
        · simp [blitzAux, ha, ho, h429]
        · intro _; rfl
        · intro h; rw [ho] at h; simp [isHardFail, h429] at h
      · by_cases h44 : status = 422 ∨ status = 404
        · refine traceProp_term oracle retries a (n + 1) none 1 ?_ (le_refl 1) ?_ ?_
          · simp [blitzAux, ha, ho, h429, h44]
          · rw [ho]; simp [isRateLimited, h429]
          · intro hhf
            rw [ho] at hhf
            rcases h44 with h | h <;> subst h <;> simp [isHardFail] at hhf
        · by_cases hok : 200 ≤ status ∧ status ≤ 299
          · cases body with
            | some b =>
              refine traceProp_term oracle retries a (n + 1) (some b) 1 ?_ (le_refl 1) ?_ ?_
              · simp [blitzAux, ha, ho, h429, h44, hok]
              · rw [ho]; simp [isRateLimited, h429]
              · intro h; rw [ho] at h; simp [isHardFail, h429, h44, hok] at h
            | none =>
              by_cases hlt : a < retries
              · refine traceProp_cons oracle retries a n (1000 * (a + 1)) ?_ hrec hpos ?_ ?_
                · simp [blitzAux, ha, ho, h429, h44, hok, hlt]
                · intro h; rw [ho] at h; simp [isRateLimited, h429] at h
                · intro _; rfl
              · refine traceProp_term oracle retries a (n + 1) none 1 ?_ (le_refl 1) ?_ ?_
                · simp [blitzAux, ha, ho, h429, h44, hok, hlt]
                · rw [ho]; simp [isRateLimited, h429]
                · intro _; exact hlt
          · by_cases hlt : a < retries
            · refine traceProp_cons oracle retries a n (1000 * (a + 1)) ?_ hrec hpos ?_ ?_
              · simp [blitzAux, ha, ho, h429, h44, hok, hlt]
              · intro h; rw [ho] at h; simp [isRateLimited, h429] at h
              · intro _; rfl
            · refine traceProp_term oracle retries a (n + 1) none 1 ?_ (le_refl 1) ?_ ?_
              · simp [blitzAux, ha, ho, h429, h44, hok, hlt]
              · rw [ho]; simp [isRateLimited, h429]
              · intro _; exact hlt

theorem blitzPost_trace {β : Type} (oracle : Nat → FetchOut β) (k : Nat)
    (hk : k < (blitzPost oracle).attempts) :
    (isRateLimited (oracle k) = true →
        (blitzPost oracle).waits[k]? = some (min (1000 * 2 ^ k) 16000) ∧
        (k < 4 → k + 1 < (blitzPost oracle).attempts)) ∧
    (isHardFail (oracle k) = true → k < 4 →
        (blitzPost oracle).waits[k]? = some (1000 * (k + 1)) ∧
        k + 1 < (blitzPost oracle).attempts) := by
  have h := blitzAux_trace oracle 4 5 0 (by omega) k hk
  simpa using h

theorem blitzAux_exhaust {β : Type} (oracle : Nat → FetchOut β) (retries : Nat) :
    ∀ (fuel a : Nat), a + fuel = retries + 1 →
      (∀ k, a ≤ k → k ≤ retries → isSuccess (oracle k) = false ∧ isNotFound (oracle k) = false) →
      (blitzAux oracle retries a fuel).result = none ∧
      (blitzAux oracle retries a fuel).attempts = fuel := by
  intro fuel
  induction fuel with
  | zero => intro a hfa h; simp [blitzAux]
  | succ n ih =>
    intro a hfa h
    have ha : a ≤ retries := by omega
    have hself := h a (le_refl a) ha
    have hrec : (blitzAux oracle retries (a + 1) n).result = none ∧
        (blitzAux oracle retries (a + 1) n).attempts = n := by
      rcases Nat.eq_zero_or_pos n with hn | _
      · subst hn; simp [blitzAux]
      · exact ih (a + 1) (by omega) (fun k hk1 hk2 => h k (by omega) hk2)
    cases ho : oracle a with
    | netError =>
      by_cases hlt : a < retries
      · simp [blitzAux, ha, ho, hlt, hrec.1, hrec.2]
      · have hn : n = 0 := by omega
        subst hn
        simp [blitzAux, ha, ho, hlt]
    | response status body =>
      rw [ho] at hself
      by_cases h429 : status = 429
      · simp [blitzAux, ha, ho, h429, hrec.1, hrec.2]
      · by_cases h44 : status = 422 ∨ status = 404
        · exfalso
          rcases h44 with hs | hs <;> subst hs <;> simp [isNotFound] at hself
        · by_cases hok : 200 ≤ status ∧ status ≤ 299
          · cases body with
            | some b =>
              exfalso
              have : isSuccess (FetchOut.response status (some b)) = true := by
                simp [isSuccess, h429, hok]
                omega
              rw [this] at hself
              exact absurd hself.1 (by simp)
            | none =>
              by_cases hlt : a < retries
              · simp [blitzAux, ha, ho, h429, h44, hok, hlt, hrec.1, hrec.2]
              · have hn : n = 0 := by omega
                subst hn
                simp [blitzAux, ha, ho, h429, h44, hok, hlt]
          · by_cases hlt : a < retries
            · simp [blitzAux, ha, ho, h429, h44, hok, hlt, hrec.1, hrec.2]
            · have hn : n = 0 := by omega
              subst hn
              simp [blitzAux, ha, ho, h429, h44, hok, hlt]

theorem blitzAux_result {β : Type} (oracle : Nat → FetchOut β) (retries : Nat) :
    ∀ (fuel a : Nat),
      (blitzAux oracle retries a fuel).result = none ∨
      ∃ k, a ≤ k ∧ k ≤ retries ∧ isSuccess (oracle k) = true ∧
        (blitzAux oracle retries a fuel).result = successBody (oracle k) := by
  intro fuel
  induction fuel with
  | zero => intro a; left; simp [blitzAux]
  | succ n ih =>
    intro a
    by_cases ha : a ≤ retries
    · have hrec := ih (a + 1)
      cases ho : oracle a with
      | netError =>
        by_cases hlt : a < retries
        · rcases hrec with hnone | ⟨k, hk1, hk2, hk3, hk4⟩
          · left; simp [blitzAux, ha, ho, hlt, hnone]
          · right
            exact ⟨k, by omega, hk2, hk3, by simp [blitzAux, ha, ho, hlt, hk4]⟩
        · left; simp [blitzAux, ha, ho, hlt]
      | response status body =>
        by_cases h429 : status = 429
        · rcases hrec with hnone | ⟨k, hk1, hk2, hk3, hk4⟩
          · left; simp [blitzAux, ha, ho, h429, hnone]
          · right
            exact ⟨k, by omega, hk2, hk3, by simp [blitzAux, ha, ho, h429, hk4]⟩
        · by_cases h44 : status = 422 ∨ status = 404
          · left; simp [blitzAux, ha, ho, h429, h44]
          · by_cases hok : 200 ≤ status ∧ status ≤ 299
            · cases body with
              | some b =>
                right
                refine ⟨a, le_refl a, ha, ?_, ?_⟩
                · rw [ho]; simp [isSuccess, h429, hok]; omega
                · rw [ho]
                  simp [blitzAux, ha, ho, h429, h44, hok, successBody]
              | none =>
                by_cases hlt : a < retries
                · rcases hrec with hnone | ⟨k, hk1, hk2, hk3, hk4⟩
                  · left; simp [blitzAux, ha, ho, h429, h44, hok, hlt, hnone]
                  · right
                    exact ⟨k, by omega, hk2, hk3, by simp [blitzAux, ha, ho, h429, h44, hok, hlt, hk4]⟩
                · left; simp [blitzAux, ha, ho, h429, h44, hok, hlt]
            · by_cases hlt : a < retries
              · rcases hrec with hnone | ⟨k, hk1, hk2, hk3, hk4⟩
                · left; simp [blitzAux, ha, ho, h429, h44, hok, hlt, hnone]
                · right
                  exact ⟨k, by omega, hk2, hk3, by simp [blitzAux, ha, ho, h429, h44, hok, hlt, hk4]⟩
              · left; simp [blitzAux, ha, ho, h429, h44, hok, hlt]
    · left; simp [blitzAux, ha]

/-- C3 counterexample to the claim as stated: with every attempt
rate-limited, all five attempts are rate-limited and each sleeps its
exponential wait, but the fifth (final) rate-limited attempt is *not*
followed by a retry: the loop exits after 5 attempts and the call
returns the empty result object. -/
theorem claim_C3_counterexample :
    isRateLimited ((fun _ => FetchOut.response 429 (none : Option Nat)) 4) = true ∧
    (blitzPost (fun _ => FetchOut.response 429 (none : Option Nat))).attempts = 5 ∧
    (blitzPost (fun _ => FetchOut.response 429 (none : Option Nat))).result = none ∧
    (blitzPost (fun _ => FetchOut.response 429 (none : Option Nat))).waits
      = [1000, 2000, 4000, 8000, 16000] := by
  decide

/-- C3 (amended): every reached rate-limited attempt `k` sleeps
`min(1000·2^k, 16000)` milliseconds and is followed by a retry as long
as the 5-attempt budget is not exhausted (a rate-limit on the final
attempt still sleeps, but the call then returns the empty result
object); in particular a call rate-limited on attempts 1–3 that
succeeds on attempt 4 returns the parsed success body after waits of
1000, 2000 and 4000 milliseconds. -/
theorem claim_C3 :
    (∀ (β : Type) (oracle : Nat → FetchOut β) (k : Nat),
        k < (blitzPost oracle).attempts → isRateLimited (oracle k) = true →
        (blitzPost oracle).waits[k]? = some (min (1000 * 2 ^ k) 16000) ∧
        (k < 4 → k + 1 < (blitzPost oracle).attempts)) ∧
    (∀ b : Nat,
        blitzPost (fun k => if k < 3 then FetchOut.response 429 none
                            else FetchOut.response 200 (some b))
          = ⟨some b, [1000, 2000, 4000], 4⟩) := by
  constructor
  · intro β oracle k hk hrl
    exact (blitzPost_trace oracle k hk).1 hrl
  · intro b
    rfl

theorem claim_C3_witness :
    (blitzPost (fun _ => FetchOut.response 429 (none : Option Nat))).waits[0]?
        = some (min (1000 * 2 ^ 0) 16000) ∧
    0 + 1 < (blitzPost (fun _ => FetchOut.response 429 (none : Option Nat))).attempts ∧
    blitzPost (fun k => if k < 3 then FetchOut.response 429 none
                        else FetchOut.response 200 (some (7 : Nat)))
      = ⟨some 7, [1000, 2000, 4000], 4⟩ := by
  have h1 := claim_C3.1 Nat (fun _ => FetchOut.response 429 (none : Option Nat)) 0
    (by decide) (by decide)
  exact ⟨h1.1, h1.2 (by decide), claim_C3.2 7⟩

/-- C4: a Remote Client call whose first attempt is answered with a
404 (not found) or 422 (unprocessable) status returns the empty result
object at once: one single attempt, no waits, no retries, and no
raised error (the call returns normally). -/
theorem claim_C4 {β : Type} (oracle : Nat → FetchOut β) (status : Nat) (body : Option β)
    (h0 : oracle 0 = FetchOut.response status body) (hs : status = 422 ∨ status = 404) :
    blitzPost oracle = ⟨none, [], 1⟩ := by
  rcases hs with h | h <;> subst h <;> simp [blitzPost, blitzAux, h0]

theorem claim_C4_witness :
    blitzPost (fun _ => FetchOut.response 404 (none : Option Nat)) = ⟨none, [], 1⟩ :=
  claim_C4 (fun _ => FetchOut.response 404 (none : Option Nat)) 404 none rfl (Or.inr rfl)

/-- C5: for every sequence of per-attempt outcomes the Remote Client
returns normally — its result is either the empty result object or
the parsed body of a successful attempt; every reached hard failure
(non-success status other than 429/422/404, thrown network error,
timeout, or unparsable body) below the 5-attempt budget sleeps
`1000·(attempt+1)` milliseconds and is retried; and when all five
attempts fail the call returns the empty result object after exactly
5 attempts instead of propagating a failure. -/
theorem claim_C5 (β : Type) (oracle : Nat → FetchOut β) :
    ((blitzPost oracle).result = none ∨
       ∃ k, k ≤ 4 ∧ isSuccess (oracle k) = true ∧
         (blitzPost oracle).result = successBody (oracle k)) ∧
    (∀ k, k < (blitzPost oracle).attempts → isHardFail (oracle k) = true → k < 4 →
       (blitzPost oracle).waits[k]? = some (1000 * (k + 1)) ∧
       k + 1 < (blitzPost oracle).attempts) ∧
    ((∀ k, k ≤ 4 → isSuccess (oracle k) = false ∧ isNotFound (oracle k) = false) →
       (blitzPost oracle).result = none ∧ (blitzPost oracle).attempts = 5) := by
  refine ⟨?_, ?_, ?_⟩
  · rcases blitzAux_result oracle 4 5 0 with hnone | ⟨k, _, hk2, hk3, hk4⟩
    · exact Or.inl hnone
    · exact Or.inr ⟨k, hk2, hk3, hk4⟩
  · intro k hk hhf hk4
    exact (blitzPost_trace oracle k hk).2 hhf hk4
  · intro h
    exact blitzAux_exhaust oracle 4 5 0 (by omega) (fun k _ hk2 => h k hk2)

theorem claim_C5_witness :
    ((blitzPost (fun _ => (FetchOut.netError : FetchOut Nat))).waits[0]?
        = some (1000 * (0 + 1)) ∧
      0 + 1 < (blitzPost (fun _ => (FetchOut.netError : FetchOut Nat))).attempts) ∧
    (blitzPost (fun _ => (FetchOut.netError : FetchOut Nat))).result = none ∧
    (blitzPost (fun _ => (FetchOut.netError : FetchOut Nat))).attempts = 5 := by
  refine ⟨?_, ?_⟩
  · exact (claim_C5 Nat (fun _ => FetchOut.netError)).2.1 0 (by decide) (by decide) (by decide)
  · exact (claim_C5 Nat (fun _ => FetchOut.netError)).2.2 (by decide)

/-! ## Experience Resolver -/

theorem findq_congr {α : Type} (p q : α → Bool) (h : ∀ x, p x = q x) :
    ∀ l : List α, l.find? p = l.find? q := by
  intro l
  induction l with
  | nil => rfl
  | cons x xs ih => simp [List.find?, h x, ih]

theorem containsSub_nil (s : JStr) : containsSub [] s = true := by
  cases s <;> simp [containsSub, List.isPrefixOf]

/-- C8 counterexample to the claim as stated: for the target URL
`"x/company/acme/about"` the path segment following "/company/" is
`"acme"`, and the spec's priority (1) selects the second entry (its
company identifier `"li/company/acme"` contains `"acme"`); the source
resolver instead matches against the slug `"acme/about"` (everything
after the last "/company/"), which neither entry contains, and falls
through to priority (2), the first current entry. -/
theorem claim_C8_counterexample :
    getCurrentExperience [c8Entry1, c8Entry2] c8Url = c8Entry1 ∧
    specResolve [c8Entry1, c8Entry2] c8Url = c8Entry2 ∧
    c8Entry1 ≠ c8Entry2 := by
  decide

/-- C8 (amended): the Experience Resolver coincides, on every
work-history list and target company URL, with the four-step priority
description in which priority (1) tests containment of the slug —
everything following the last "/company/" in the target URL after
removing one trailing slash, the whole URL when "/company/" is absent,
and an empty slug collapsing priority (1) into priority (2) —
(`amendedResolve`): (1) first current entry whose company identifier
contains the slug, (2) else first current entry, (3) else the first
entry supplied, (4) else the empty placeholder. -/
theorem claim_C8 (experiences : List Experience) (companyUrl : JStr) :
    getCurrentExperience experiences companyUrl = amendedResolve experiences companyUrl := by
  simp only [getCurrentExperience, amendedResolve]
  by_cases hslug : companySlug companyUrl = []
  · rw [hslug]
    have h1 : experiences.find? (fun e =>
        e.job_is_current && !([] : JStr).isEmpty && containsSub [] e.company_linkedin_url)
        = none := by
      apply List.find?_eq_none.mpr
      intro x _
      simp
    have h2 : experiences.find? (fun e =>
        e.job_is_current && containsSub [] e.company_linkedin_url)
        = experiences.find? (fun e => e.job_is_current) := by
      apply findq_congr
      intro x
      rw [containsSub_nil]
      simp
    rw [h1, h2]
    cases hfc : experiences.find? (fun e => e.job_is_current) with
    | some e => rfl
    | none => cases experiences <;> rfl
  · have hne : (companySlug companyUrl).isEmpty = false := by
      cases hcs : companySlug companyUrl with
      | nil => exact absurd hcs hslug
      | cons c cs => rfl
    have h2 : experiences.find? (fun e =>
        e.job_is_current && !(companySlug companyUrl).isEmpty
          && containsSub (companySlug companyUrl) e.company_linkedin_url)
        = experiences.find? (fun e =>
            e.job_is_current && containsSub (companySlug companyUrl) e.company_linkedin_url) := by
      apply findq_congr
      intro x
      rw [hne]
      simp
    rw [h2]
    cases hfc : experiences.find? (fun e =>
        e.job_is_current && containsSub (companySlug companyUrl) e.company_linkedin_url) with
    | some e => rfl
    | none =>
      cases hfc2 : experiences.find? (fun e => e.job_is_current) with
      | some e => rfl
      | none => cases experiences <;> rfl

/-! ## Result retrieval (download gate) -/

/-- C1 counterexample to the claim as stated: a job whose status
reached `error` via the catch handler's broadcast (which sets
`done: true`) with one accumulated partial result row.  The download
path returns the accumulated rows, not the "not ready" condition the
claim asserts for every phase other than `done`. -/
theorem claim_C1_counterexample :
    erroredJobRec.status.phase = Phase.error ∧
    download (some erroredJobRec) = DownloadOut.file [sampleResultRow] ∧
    download (some erroredJobRec) ≠ DownloadOut.notReady := by
  decide

/-- C1 (amended): result retrieval for a known job returns the
accumulated ResultRow sequence if and only if the status's `done`
flag is set, and the "not ready" condition exactly when it is unset;
since the error broadcast also sets `done`, partial results of an
errored job ARE retrievable through the download path ("not ready"
arises only in the `queued` and `enriching` phases). -/
theorem claim_C1 :
    (∀ j : JobRec, (download (some j) = DownloadOut.file j.results ↔ j.status.done = true) ∧
       (download (some j) = DownloadOut.notReady ↔ j.status.done = false)) ∧
    (∀ (msg : JStr) (st : Status),
       (deltaError msg st).done = true ∧ (deltaError msg st).phase = Phase.error) ∧
    download none = DownloadOut.notFound := by
  refine ⟨fun j => ?_, fun msg st => ⟨rfl, rfl⟩, rfl⟩
  cases hd : j.status.done <;> simp [download, hd]

theorem claim_C1_witness :
    download (some erroredJobRec) = DownloadOut.file erroredJobRec.results :=
  (claim_C1.1 erroredJobRec).1.mpr rfl

/-! ## Orchestrator: skipPhone (C6) -/

theorem phoneFree_iff (s : OrchState) : phoneFree s = true ↔
    ((∀ c ∈ s.calls, isPhoneCall c = false) ∧ s.phonesFound = 0 ∧
     s.status.phonesFound = 0 ∧ ∀ st ∈ s.snapshots, st.phonesFound = 0) := by
  simp only [phoneFree, Bool.and_eq_true, List.all_eq_true, Bool.not_eq_true', beq_iff_eq]
  tauto

theorem pf_processEmployee (env : Env) (ctx : CompanyCtx) (emp : Employee) (s : OrchState)
    (h : phoneFree s = true) : phoneFree (processEmployee env true ctx emp s) = true := by
  rw [phoneFree_iff] at h ⊢
  obtain ⟨hc, hl, hs, hsn⟩ := h
  by_cases hu : emp.linkedin_url = []
  · simp only [processEmployee, hu, eq_self_iff_true, if_true]
    exact ⟨hc, hl, hs, hsn⟩
  · by_cases he : (env.emailOf emp.linkedin_url).email = []
    · simp only [processEmployee, if_neg hu, if_pos he, if_pos rfl]
      refine ⟨?_, hl, hs, hsn⟩
      intro c hcm
      rcases List.mem_append.mp hcm with hcm | hcm
      · exact hc c hcm
      · rcases List.mem_singleton.mp hcm with rfl
        rfl
    · simp only [processEmployee, if_neg hu, if_neg he, if_pos rfl]
      refine ⟨?_, hl, hs, ?_⟩
      · intro c hcm
        rcases List.mem_append.mp hcm with hcm | hcm
        · exact hc c hcm
        · rcases List.mem_singleton.mp hcm with rfl
          rfl
      · intro st hst
        rcases List.mem_append.mp hst with hst | hst
        · exact hsn st hst
        · rcases List.mem_singleton.mp hst with rfl
          exact hs

theorem pf_processEmployees (env : Env) (ctx : CompanyCtx) :
    ∀ (l : List Employee) (s : OrchState), phoneFree s = true →
      phoneFree (processEmployees env true ctx l s) = true := by
  intro l
  induction l with
  | nil => intro s h; exact h
  | cons emp rest ih =>
    intro s h
    exact ih (processEmployee env true ctx emp s) (pf_processEmployee env ctx emp s h)

theorem pf_processRow (env : Env) (job : Job) (hsp : job.skipPhone = true)
    (i : Nat) (row : Row) (s : OrchState) (h : phoneFree s = true) :
    phoneFree (processRow env job i row s) = true := by
  rw [phoneFree_iff] at h
  obtain ⟨hc, hl, hs, hsn⟩ := h
  have hb1 : phoneFree (bcast s (deltaRow i
      (jsOr (if job.hasNameCol then row.name else trimL row.linkedin) (trimL row.linkedin)))) = true := by
    rw [phoneFree_iff]
    refine ⟨hc, hl, hs, ?_⟩
    intro st hst
    rcases List.mem_append.mp hst with hst | hst
    · exact hsn st hst
    · rcases List.mem_singleton.mp hst with rfl
      exact hs
  by_cases hu : trimL row.linkedin = []
  · simp only [processRow, hu, eq_self_iff_true, if_true]
    rw [hu] at hb1
    exact hb1
  · simp only [processRow, if_neg hu, hsp]
    apply pf_processEmployees
    rw [phoneFree_iff] at hb1 ⊢
    obtain ⟨hc1, hl1, hs1, hsn1⟩ := hb1
    refine ⟨?_, hl1, hs1, ?_⟩
    · intro c hcm
      rcases List.mem_append.mp hcm with hcm | hcm
      · exact hc1 c hcm
      · rcases List.mem_map.mp hcm with ⟨p, _, rfl⟩
        rfl
    · intro st hst
      rcases List.mem_append.mp hst with hst | hst
      · exact hsn1 st hst
      · rcases List.mem_singleton.mp hst with rfl
        exact hs1

theorem pf_processRows (env : Env) (job : Job) (hsp : job.skipPhone = true) :
    ∀ (rows : List Row) (i : Nat) (s : OrchState), phoneFree s = true →
      phoneFree (processRows env job i rows s) = true := by
  intro rows
  induction rows with
  | nil => intro i s h; exact h
  | cons row rest ih =>
    intro i s h
    exact ih (i + 1) (processRow env job i row s) (pf_processRow env job hsp i row s h)

/-- C6: with `skipPhone` enabled, the run issues no phone-enrichment
call, and `phonesFound` is 0 in every published snapshot and in the
final (terminal `done`) status. -/
theorem claim_C6 (job : Job) (env : Env) (h : job.skipPhone = true) :
    (∀ c ∈ (runEnrichment job env).calls, isPhoneCall c = false) ∧
    (∀ st ∈ (runEnrichment job env).snapshots, st.phonesFound = 0) ∧
    (runEnrichment job env).status.phonesFound = 0 := by
  have h0 : phoneFree (bcast (initState job) deltaEnriching) = true := by
    rw [phoneFree_iff]
    refine ⟨?_, rfl, rfl, ?_⟩
    · intro c hcm
      simp [bcast, initState] at hcm
    · intro st hst
      simp only [bcast, initState] at hst
      rcases List.mem_singleton.mp (by simpa using hst) with rfl
      rfl
  have h1 := pf_processRows env job h job.rows 0 (bcast (initState job) deltaEnriching) h0
  rw [phoneFree_iff] at h1
  obtain ⟨hc1, hl1, hs1, hsn1⟩ := h1
  refine ⟨hc1, ?_, ?_⟩
  · intro st hst
    simp only [runEnrichment, bcast] at hst
    rcases List.mem_append.mp hst with hst | hst
    · exact hsn1 st hst
    · rcases List.mem_singleton.mp hst with rfl
      exact hl1
  · simp only [runEnrichment, bcast]
    exact hl1

theorem claim_C6_witness :
    jobTrue.skipPhone = true ∧
    (∀ c ∈ (runEnrichment jobTrue sampleEnv).calls, isPhoneCall c = false) ∧
    (runEnrichment jobTrue sampleEnv).status.phonesFound = 0 :=
  ⟨rfl, (claim_C6 jobTrue sampleEnv rfl).1, (claim_C6 jobTrue sampleEnv rfl).2.2⟩

/-! ## Orchestrator: empty identifier rows (C7) -/

theorem jsOr_nil (a : JStr) : jsOr a [] = a := by
  unfold jsOr
  split
  · simpa using (by assumption : a = [])
  · rfl

/-- C7: a row whose company-identifier cell is empty after trimming is
skipped without error: the row contributes only its progress
broadcast; no search call is issued for it, no ResultRow is appended
for it, the counters are untouched, and processing continues with the
next row. -/
theorem claim_C7 (env : Env) (job : Job) (i : Nat) (row : Row) (s : OrchState)
    (h : trimL row.linkedin = []) :
    processRow env job i row s
        = bcast s (deltaRow i (if job.hasNameCol then row.name else [])) ∧
    (processRow env job i row s).calls = s.calls ∧
    (processRow env job i row s).results = s.results ∧
    (processRow env job i row s).employeesFound = s.employeesFound ∧
    (∀ rest, processRows env job i (row :: rest) s
        = processRows env job (i + 1) rest (processRow env job i row s)) := by
  have h1 : processRow env job i row s
      = bcast s (deltaRow i (if job.hasNameCol then row.name else [])) := by
    simp only [processRow, h, eq_self_iff_true, if_true, jsOr_nil]
  exact ⟨h1, by rw [h1]; rfl, by rw [h1]; rfl, by rw [h1]; rfl, fun rest => rfl⟩

theorem claim_C7_witness :
    (processRow sampleEnv jobTrue 0 rowBlank (initState jobTrue)).calls
        = (initState jobTrue).calls ∧
    (processRow sampleEnv jobTrue 0 rowBlank (initState jobTrue)).results
        = (initState jobTrue).results :=
  ⟨(claim_C7 sampleEnv jobTrue 0 rowBlank (initState jobTrue) (by decide)).2.1,
   (claim_C7 sampleEnv jobTrue 0 rowBlank (initState jobTrue) (by decide)).2.2.1⟩

/-! ## Orchestrator: snapshot monotonicity (C9) -/

theorem statusLe_refl (a : Status) : statusLe a a :=
  ⟨le_refl _, le_refl _, le_refl _, le_refl _⟩

theorem statusLe_trans {a b c : Status} (h1 : statusLe a b) (h2 : statusLe b c) :
    statusLe a c :=
  ⟨le_trans h1.1 h2.1, le_trans h1.2.1 h2.2.1, le_trans h1.2.2.1 h2.2.2.1,
   le_trans h1.2.2.2 h2.2.2.2⟩

theorem monoInv_bcast (s : OrchState) (f : Status → Status) (hInv : MonoInv s)
    (hf : statusLe s.status (f s.status))
    (he : (f s.status).employeesFound ≤ s.employeesFound)
    (hm : (f s.status).emailsFound ≤ s.emailsFound)
    (hp : (f s.status).phonesFound ≤ s.phonesFound) :
    MonoInv (bcast s f) := by
  obtain ⟨hch, hlast, _, _, _⟩ := hInv
  refine ⟨?_, ?_, he, hm, hp⟩
  · show List.Chain' statusLe (s.snapshots ++ [f s.status])
    refine List.Chain'.append hch (List.chain'_singleton _) ?_
    intro x hx y hy
    rcases List.mem_singleton.mp (by simpa using hy) with rfl
    exact statusLe_trans (hlast x (Option.mem_def.mp hx)) hf
  · intro x hx
    have hx' : (s.snapshots ++ [f s.status]).getLast? = some x := hx
    rw [List.getLast?_concat] at hx'
    rcases Option.some_injective _ hx' with rfl
    exact statusLe_refl _

theorem monoInv_processEmployee (env : Env) (sp : Bool) (ctx : CompanyCtx) (emp : Employee)
    (s : OrchState) (h : MonoInv s) : MonoInv (processEmployee env sp ctx emp s) := by
  obtain ⟨hch, hlast, hbe, hbm, hbp⟩ := h
  by_cases hu : emp.linkedin_url = []
  · simp only [processEmployee, hu, eq_self_iff_true, if_true]
    exact ⟨hch, hlast, hbe, hbm, hbp⟩
  · have hsb : MonoInv
        (if (env.emailOf emp.linkedin_url).email = []
         then { s with calls := s.calls ++ [Call.email emp.linkedin_url] }
         else
           bcast { s with calls := s.calls ++ [Call.email emp.linkedin_url],
                          emailsFound := s.emailsFound + 1 }
             (deltaEmails (s.emailsFound + 1))) := by
      by_cases he : (env.emailOf emp.linkedin_url).email = []
      · rw [if_pos he]
        exact ⟨hch, hlast, hbe, hbm, hbp⟩
      · rw [if_neg he]
        refine monoInv_bcast _ _ ⟨hch, hlast, hbe, le_trans hbm (Nat.le_succ _), hbp⟩
          ⟨le_refl _, le_refl _, le_trans hbm (Nat.le_succ _), le_refl _⟩ hbe (le_refl _) hbp
    cases sp with
    | true =>
      simp only [processEmployee, if_neg hu, if_pos rfl]
      exact hsb
    | false =>
      simp only [processEmployee, if_neg hu]
      obtain ⟨hch1, hlast1, hbe1, hbm1, hbp1⟩ := hsb
      by_cases hp : (env.phoneOf emp.linkedin_url).phone = []
      · simp only [hp, eq_self_iff_true, if_true, Bool.false_eq_true, if_false]
        exact ⟨hch1, hlast1, hbe1, hbm1, hbp1⟩
      · simp only [if_neg hp, Bool.false_eq_true, if_false]
        refine monoInv_bcast _ _ ⟨hch1, hlast1, hbe1, hbm1, le_trans hbp1 (Nat.le_succ _)⟩
          ⟨le_refl _, le_refl _, le_refl _, le_trans hbp1 (Nat.le_succ _)⟩ hbe1 hbm1 (le_refl _)

theorem processEmployee_status_cc (env : Env) (sp : Bool) (ctx : CompanyCtx) (emp : Employee)
    (s : OrchState) :
    (processEmployee env sp ctx emp s).status.companyCurrent = s.status.companyCurrent ∧
    (processEmployee env sp ctx emp s).status.companyTotal = s.status.companyTotal := by
  by_cases hu : emp.linkedin_url = [] <;>
    cases sp <;>
    by_cases he : (env.emailOf emp.linkedin_url).email = [] <;>
    by_cases hp : (env.phoneOf emp.linkedin_url).phone = [] <;>
    simp [processEmployee, bcast, deltaEmails, deltaPhones, hu, he, hp]

theorem monoInv_processEmployees (env : Env) (sp : Bool) (ctx : CompanyCtx) :
    ∀ (l : List Employee) (s : OrchState), MonoInv s →
      MonoInv (processEmployees env sp ctx l s) ∧
      (processEmployees env sp ctx l s).status.companyCurrent = s.status.companyCurrent ∧
      (processEmployees env sp ctx l s).status.companyTotal = s.status.companyTotal := by
  intro l
  induction l with
  | nil => intro s h; exact ⟨h, rfl, rfl⟩
  | cons emp rest ih =>
    intro s h
    obtain ⟨h1, h2, h3⟩ := ih (processEmployee env sp ctx emp s)
      (monoInv_processEmployee env sp ctx emp s h)
    obtain ⟨h4, h5⟩ := processEmployee_status_cc env sp ctx emp s
    exact ⟨h1, by simp only [processEmployees]; rw [h2, h4],
      by simp only [processEmployees]; rw [h3, h5]⟩

theorem monoInv_processRow (env : Env) (job : Job) (i : Nat) (row : Row) (s : OrchState)
    (h : MonoInv s) (hcc : s.status.companyCurrent ≤ i + 1) :
    MonoInv (processRow env job i row s) ∧
    (processRow env job i row s).status.companyCurrent = i + 1 ∧
    (processRow env job i row s).status.companyTotal = s.status.companyTotal := by
  obtain ⟨hch, hlast, hbe, hbm, hbp⟩ := h
  have h1 : ∀ nm, MonoInv (bcast s (deltaRow i nm)) := fun nm =>
    monoInv_bcast s (deltaRow i nm) ⟨hch, hlast, hbe, hbm, hbp⟩
      ⟨hcc, le_refl _, le_refl _, le_refl _⟩ hbe hbm hbp
  by_cases hu : trimL row.linkedin = []
  · simp only [processRow, hu, eq_self_iff_true, if_true]
    exact ⟨h1 _, rfl, rfl⟩
  · simp only [processRow, if_neg hu]
    set s1 := bcast s (deltaRow i
      (jsOr (if job.hasNameCol then row.name else trimL row.linkedin) (trimL row.linkedin))) with hs1
    obtain ⟨hch1, hlast1, hbe1, hbm1, hbp1⟩ := h1 _
    have h2 : MonoInv (bcast { s1 with
        calls := s1.calls ++ (List.range (findAllEmployees PAGE_SIZE
          (env.employees (trimL row.linkedin))).2).map
            (fun p => Call.search (trimL row.linkedin) (p + 1)),
        employeesFound := s1.employeesFound + (findAllEmployees PAGE_SIZE
          (env.employees (trimL row.linkedin))).1.length }
        (deltaEmployees (s1.employeesFound + (findAllEmployees PAGE_SIZE
          (env.employees (trimL row.linkedin))).1.length))) := by
      refine monoInv_bcast _ _ ⟨hch1, hlast1, le_trans hbe1 (Nat.le_add_right _ _), hbm1, hbp1⟩
        ⟨le_refl _, le_trans hbe1 (Nat.le_add_right _ _), le_refl _, le_refl _⟩
        (le_refl _) hbm1 hbp1
    obtain ⟨h3, h4, h5⟩ := monoInv_processEmployees env job.skipPhone _ _ _ h2
    exact ⟨h3, by rw [h4]; rfl, by rw [h5]; rfl⟩

theorem monoInv_processRows (env : Env) (job : Job) :
    ∀ (rows : List Row) (i : Nat) (s : OrchState), MonoInv s →
      s.status.companyCurrent ≤ i →
      MonoInv (processRows env job i rows s) ∧
      (processRows env job i rows s).status.companyTotal = s.status.companyTotal ∧
      (rows = [] → processRows env job i rows s = s) ∧
      (rows ≠ [] → (processRows env job i rows s).status.companyCurrent = i + rows.length) := by
  intro rows
  induction rows with
  | nil =>
    intro i s h _
    exact ⟨h, rfl, fun _ => rfl, fun hne => absurd rfl hne⟩
  | cons row rest ih =>
    intro i s h hcc
    obtain ⟨h1, h2, h3⟩ := monoInv_processRow env job i row s h (by omega)
    obtain ⟨h4, h5, h6, h7⟩ := ih (i + 1) (processRow env job i row s) h1 (by omega)
    refine ⟨h4, by simp only [processRows]; rw [h5, h3],
      fun hne => absurd hne (by simp), fun _ => ?_⟩
    cases rest with
    | nil =>
      show (processRows env job (i + 1) []
        (processRow env job i row s)).status.companyCurrent = i + [row].length
      rw [h6 rfl, h2]
      simp
    | cons r2 rs2 =>
      show (processRows env job (i + 1) (r2 :: rs2)
        (processRow env job i row s)).status.companyCurrent = i + (row :: r2 :: rs2).length
      rw [h7 (by simp)]
      simp
      omega

/-- C9: across the ordered snapshots published for one job the
counters `companyCurrent`, `employeesFound`, `emailsFound` and
`phonesFound` are monotonically non-decreasing (`statusLe`-chain);
the terminal snapshot is the last one published, has phase `done`
with the `done` flag set, and its `companyCurrent` equals
`companyTotal`. -/
theorem claim_C9 (job : Job) (env : Env) :
    List.Chain' statusLe (runEnrichment job env).snapshots ∧
    (runEnrichment job env).snapshots.getLast? = some (runEnrichment job env).status ∧
    (runEnrichment job env).status.phase = Phase.done ∧
    (runEnrichment job env).status.done = true ∧
    (runEnrichment job env).status.companyCurrent
      = (runEnrichment job env).status.companyTotal := by
  have h0 : MonoInv (bcast (initState job) deltaEnriching) := by
    refine ⟨?_, ?_, le_refl _, le_refl _, le_refl _⟩
    · exact List.chain'_singleton _
    · intro x hx
      simp only [bcast, initState] at hx
      rcases Option.some_injective _ (by simpa using hx) with rfl
      exact statusLe_refl _
  have hcc0 : (bcast (initState job) deltaEnriching).status.companyCurrent = 0 := rfl
  have htot0 : (bcast (initState job) deltaEnriching).status.companyTotal
      = job.rows.length := rfl
  obtain ⟨h1, h2, h3, h4⟩ := monoInv_processRows env job job.rows 0
    (bcast (initState job) deltaEnriching) h0 (by omega)
  obtain ⟨hch1, hlast1, hbe1, hbm1, hbp1⟩ := h1
  set s1 := processRows env job 0 job.rows (bcast (initState job) deltaEnriching) with hs1
  have hccfin : s1.status.companyCurrent = job.rows.length := by
    cases hrows : job.rows with
    | nil =>
      rw [h3 hrows, hcc0]
      rfl
    | cons r rs =>
      have hcur := h4 (by rw [hrows]; simp)
      rw [hcur, hrows]
      simp
  have htotfin : s1.status.companyTotal = job.rows.length := by
    rw [h2, htot0]
  have hrun : runEnrichment job env
      = bcast s1 (deltaDone s1.employeesFound s1.emailsFound s1.phonesFound) := rfl
  have hfin : MonoInv (runEnrichment job env) := by
    rw [hrun]
    exact monoInv_bcast s1 _ ⟨hch1, hlast1, hbe1, hbm1, hbp1⟩
      ⟨le_refl _, hbe1, hbm1, hbp1⟩ (le_refl _) (le_refl _) (le_refl _)
  refine ⟨hfin.1, ?_, ?_, ?_, ?_⟩
  · rw [hrun]
    show (s1.snapshots ++ [_]).getLast? = _
    rw [List.getLast?_concat]
    rfl
  · rw [hrun]; rfl
  · rw [hrun]; rfl
  · rw [hrun]
    show (deltaDone _ _ _ s1.status).companyCurrent = (deltaDone _ _ _ s1.status).companyTotal
    show s1.status.companyCurrent = s1.status.companyTotal
    rw [hccfin, htotfin]

/-! ## Orchestrator: the skipPhone submission flag (C10) -/

theorem processEmployee_calls_sub (env : Env) (sp : Bool) (ctx : CompanyCtx) (emp : Employee)
    (s : OrchState) (c : Call) (hc : c ∈ s.calls) :
    c ∈ (processEmployee env sp ctx emp s).calls := by
  by_cases hu : emp.linkedin_url = [] <;>
    cases sp <;>
    by_cases he : (env.emailOf emp.linkedin_url).email = [] <;>
    by_cases hp : (env.phoneOf emp.linkedin_url).phone = [] <;>
    simp [processEmployee, bcast, hu, he, hp, hc]

theorem processEmployees_calls_sub (env : Env) (sp : Bool) (ctx : CompanyCtx) :
    ∀ (l : List Employee) (s : OrchState) (c : Call), c ∈ s.calls →
      c ∈ (processEmployees env sp ctx l s).calls := by
  intro l
  induction l with
  | nil => intro s c hc; exact hc
  | cons e rest ih =>
    intro s c hc
    exact ih (processEmployee env sp ctx e s) c (processEmployee_calls_sub env sp ctx e s c hc)

theorem processRow_calls_sub (env : Env) (job : Job) (i : Nat) (row : Row) (s : OrchState)
    (c : Call) (hc : c ∈ s.calls) : c ∈ (processRow env job i row s).calls := by
  by_cases hu : trimL row.linkedin = []
  · simp only [processRow, hu, eq_self_iff_true, if_true]
    exact hc
  · simp only [processRow, if_neg hu]
    apply processEmployees_calls_sub
    simp [bcast, hc]

theorem processRows_calls_sub (env : Env) (job : Job) :
    ∀ (rows : List Row) (i : Nat) (s : OrchState) (c : Call), c ∈ s.calls →
      c ∈ (processRows env job i rows s).calls := by
  intro rows
  induction rows with
  | nil => intro i s c hc; exact hc
  | cons row rest ih =>
    intro i s c hc
    exact ih (i + 1) (processRow env job i row s) c (processRow_calls_sub env job i row s c hc)

theorem phone_mem_processEmployee (env : Env) (ctx : CompanyCtx) (emp : Employee)
    (s : OrchState) (hu : emp.linkedin_url ≠ []) :
    Call.phone emp.linkedin_url ∈ (processEmployee env false ctx emp s).calls := by
  by_cases he : (env.emailOf emp.linkedin_url).email = [] <;>
    by_cases hp : (env.phoneOf emp.linkedin_url).phone = [] <;>
    simp [processEmployee, bcast, hu, he, hp]

theorem phone_mem_processEmployees (env : Env) (ctx : CompanyCtx) :
    ∀ (l : List Employee) (s : OrchState) (emp : Employee), emp ∈ l →
      emp.linkedin_url ≠ [] →
      Call.phone emp.linkedin_url ∈ (processEmployees env false ctx l s).calls := by
  intro l
  induction l with
  | nil => intro s emp h _; cases h
  | cons e rest ih =>
    intro s emp hmem hu
    rcases List.mem_cons.mp hmem with rfl | hmem
    · exact processEmployees_calls_sub env false ctx rest _ _
        (phone_mem_processEmployee env ctx emp s hu)
    · exact ih _ emp hmem hu

theorem phone_mem_processRow (env : Env) (job : Job) (hsp : job.skipPhone = false)
    (i : Nat) (row : Row) (s : OrchState) (hurl : trimL row.linkedin ≠ [])
    (emp : Employee) (hmem : emp ∈ env.employees (trimL row.linkedin))
    (hu : emp.linkedin_url ≠ []) :
    Call.phone emp.linkedin_url ∈ (processRow env job i row s).calls := by
  simp only [processRow, if_neg hurl, hsp]
  have hemps : (findAllEmployees PAGE_SIZE (env.employees (trimL row.linkedin))).1
      = env.employees (trimL row.linkedin) := by
    rw [findAllEmployees_spec PAGE_SIZE (by decide) (env.employees (trimL row.linkedin))]
  rw [hemps]
  exact phone_mem_processEmployees env _ _ _ emp hmem hu

theorem phone_mem_processRows (env : Env) (job : Job) (hsp : job.skipPhone = false) :
    ∀ (rows : List Row) (i : Nat) (s : OrchState) (row : Row), row ∈ rows →
      trimL row.linkedin ≠ [] →
      ∀ emp, emp ∈ env.employees (trimL row.linkedin) → emp.linkedin_url ≠ [] →
      Call.phone emp.linkedin_url ∈ (processRows env job i rows s).calls := by
  intro rows
  induction rows with
  | nil => intro i s row h; cases h
  | cons r rest ih =>
    intro i s row hmem hurl emp hememp hu
    rcases List.mem_cons.mp hmem with rfl | hmem
    · exact processRows_calls_sub env job rest (i + 1) _ _
        (phone_mem_processRow env job hsp i row s hurl emp hememp hu)
    · exact ih (i + 1) (processRow env job i r s) row hmem hurl emp hememp hu

/-- C10: phone enrichment is skipped exactly when the submitted
`skipPhone` form value is the string `"true"`; for every other value
(absent, `"True"`, `"1"`, `"on"`, ...) the flag parses to `false` and
the job performs phone enrichment: a phone-enrichment call is issued
for every discovered employee with a non-empty identifier URL of every
row with a non-empty company identifier. -/
theorem claim_C10 :
    (∀ v : Option JStr, doSkipPhone v = true ↔ v = some ('t' :: 'r' :: 'u' :: 'e' :: [])) ∧
    (∀ (v : Option JStr) (job : Job) (env : Env) (row : Row) (emp : Employee),
       v ≠ some ('t' :: 'r' :: 'u' :: 'e' :: []) → job.skipPhone = doSkipPhone v →
       row ∈ job.rows → trimL row.linkedin ≠ [] →
       emp ∈ env.employees (trimL row.linkedin) → emp.linkedin_url ≠ [] →
       Call.phone emp.linkedin_url ∈ (runEnrichment job env).calls) := by
  constructor
  · intro v
    simp [doSkipPhone]
  · intro v job env row emp hv hsp hrow hurl hmem hu
    have hfalse : job.skipPhone = false := by
      rw [hsp]
      simp [doSkipPhone, hv]
    exact phone_mem_processRows env job hfalse job.rows 0
      (bcast (initState job) deltaEnriching) row hrow hurl emp hmem hu

theorem claim_C10_witness :
    Call.phone ('p' :: []) ∈ (runEnrichment jobFalse sampleEnv).calls :=
  claim_C10.2 (some ('o' :: 'n' :: [])) jobFalse sampleEnv sampleRow1 sampleEmployee
    (by decide) (by decide) (by decide) (by decide) (by decide) (by decide)

end Enrich
